import Mathlib

/-!
Verification of the BB84 session-coordinator engine of `quantum-bb84`
(`alice-app.py`, `bob-app.py`, `streamlit-keygen.py`).

The Python protocol-engine functions are shallowly embedded over `List Int`
(Python ints) and `ℚ` (Python's float division on small integer operands is
modeled exactly as rational division).  Randomness (`random.randint`,
`random.random`) is made explicit: each function that draws random values
receives oracle arguments indexed by loop position, so theorems quantify over
every possible outcome.  A Python statement that can raise `IndexError` is
modeled by an `Option`-valued access (`pyIndex`, faithful to Python's negative
indexing), and a function body containing such an access returns `Option _`,
`none` meaning the call raises.
-/

namespace BB84

/-- Python list subscript `xs[i]`: nonnegative indices from the front,
negative indices from the back, `none` (= `IndexError`) when `i` is out of
range on either side. -/
def pyIndex {α : Type} (xs : List α) (i : Int) : Option α :=
  if 0 ≤ i then xs.get? i.toNat
  else if (-i).toNat ≤ xs.length then xs.get? (xs.length - (-i).toNat)
  else none

/-- `generate_qubits` (alice-app.py lines 113-127; identical in
streamlit-keygen.py lines 122-135).  The `random.randint(0, 1)` draws are the
oracles `bitR`/`baseR`; both the "random" and the fallback method branch of the
source append one bit and one basis per iteration.  `num_qubits` is a Python
int, so the loop runs `max num_qubits 0` times (`range` of a negative int is
empty). -/
def generate_qubits (num_qubits : Int) (method : String)
    (bitR baseR : Nat → Int) : List Int × List Int :=
  (List.range num_qubits.toNat).foldl
    (fun acc i =>
      if method = "random" then (acc.1 ++ [bitR i], acc.2 ++ [baseR i])
      else (acc.1 ++ [bitR i], acc.2 ++ [baseR i]))
    ([], [])

/-- The common minimum length to which `perform_sifting` truncates:
`min(len(alice_bits), len(alice_bases), len(partner_bases), len(partner_results))`. -/
def sift_min_length (alice_bits alice_bases partner_bases partner_results : List Int) : Nat :=
  min (min (min alice_bits.length alice_bases.length) partner_bases.length)
    partner_results.length

/-- `perform_sifting` (alice-app.py lines 129-142; identical in
streamlit-keygen.py lines 176-189).  Iterates `i` over the common minimum
length, appending `int(partner_results[i])` (identity on ints) and `i` whenever
`alice_bases[i] == partner_bases[i]`.  All accesses are at `i` below every
list's length, so `getD` never takes its default. -/
def perform_sifting (alice_bits alice_bases partner_bases partner_results : List Int) :
    List Int × List Int :=
  (List.range (sift_min_length alice_bits alice_bases partner_bases partner_results)).foldl
    (fun acc i =>
      if alice_bases.getD i 0 = partner_bases.getD i 0 then
        (acc.1 ++ [partner_results.getD i 0], acc.2 ++ [Int.ofNat i])
      else acc)
    ([], [])

/-- Loop body of `error_checking`'s counting loop (alice-app.py lines 152-157):
`if idx < len(matching_indices) and matching_indices[idx] < len(alice_bits)`
guards the access `alice_bits[matching_indices[idx]]`; a raised `IndexError`
(possible through Python's negative indexing, which passes the `< len` guard)
propagates as `none`. -/
def errStep (alice_bits sifted_bits matching_indices : List Int)
    (acc : Option Nat) (idx : Nat) : Option Nat :=
  match acc with
  | none => none
  | some errors =>
    if idx < matching_indices.length ∧
        matching_indices.getD idx 0 < (alice_bits.length : Int) then
      match pyIndex alice_bits (matching_indices.getD idx 0) with
      | none => none
      | some alice_bit =>
        if alice_bit ≠ sifted_bits.getD idx 0 then some (errors + 1) else some errors
    else some errors

/-- `error_checking` (alice-app.py lines 144-169).  `inject` is the outcome of
`random.randint(1, max(1, total_bits // 15))`, drawn only when
`has_eavesdropper`; theorems that quantify over the random outcome constrain
`inject` to that interval.  `error_rate` is `errors / total_bits` as an exact
rational.  `sifted_bits[:-sacrifice_count]` keeps the first
`len - sacrifice_count` elements. -/
def error_checking (alice_bits sifted_bits matching_indices : List Int)
    (has_eavesdropper : Bool) (inject : Nat) : Option (ℚ × Nat × List Int) :=
  let total_bits := sifted_bits.length
  if total_bits = 0 then some (0, 0, [])
  else
    match (List.range total_bits).foldl (errStep alice_bits sifted_bits matching_indices)
        (some 0) with
    | none => none
    | some natural =>
      let errors := if has_eavesdropper then natural + inject else natural
      let error_rate : ℚ := if 0 < total_bits then (errors : ℚ) / (total_bits : ℚ) else 0
      let sacrifice_count := min (errors + 1) (max 1 (sifted_bits.length / 8))
      let remaining_bits :=
        if 0 < sacrifice_count ∧ sacrifice_count < sifted_bits.length then
          sifted_bits.take (sifted_bits.length - sacrifice_count)
        else sifted_bits
      some (error_rate, errors, remaining_bits)

/-- Whether loop position `idx` of `error_checking`'s counting loop counts an
error: both bound guards pass and the guarded comparison sees a mismatch. -/
def natErrP (ab sb mi : List Int) (idx : Nat) : Bool :=
  decide (idx < mi.length) && decide (mi.getD idx 0 < (ab.length : Int)) &&
    ((pyIndex ab (mi.getD idx 0)).getD 0 != sb.getD idx 0)

/-- Loop body of `bob_measurement` (streamlit-keygen.py lines 158-172): draw
Bob's basis (`basisR i`, the same in both method branches of the source), read
`alice_bases[i]` unguarded (raising, `none`, when `i ≥ len(alice_bases)`), and
record `transmitted_bits[i]` on basis agreement or a random result
(`resultR i`) otherwise. -/
def bmStep (alice_bases transmitted_bits : List Int) (method : String)
    (basisR resultR : Nat → Int) (acc : Option (List Int × List Int)) (i : Nat) :
    Option (List Int × List Int) :=
  match acc with
  | none => none
  | some (bob_bases, bob_results) =>
    let basis := if method = "random" then basisR i else basisR i
    match alice_bases.get? i with
    | none => none
    | some ab =>
      let result := if ab = basis then transmitted_bits.getD i 0 else resultR i
      some (bob_bases ++ [basis], bob_results ++ [result])

/-- `bob_measurement` (streamlit-keygen.py lines 153-174).  Iterates `bmStep`
over `range(len(transmitted_bits))`; `transmitted_bits[i]` is always in range
there, but `alice_bases[i]` is not when `alice_bases` is shorter. -/
def bob_measurement (alice_bases transmitted_bits : List Int) (method : String)
    (basisR resultR : Nat → Int) : Option (List Int × List Int) :=
  (List.range transmitted_bits.length).foldl
    (bmStep alice_bases transmitted_bits method basisR resultR) (some ([], []))

/-- Loop body of `simulate_measurement` (bob-app.py lines 116-131): the
subscript `transmitted_bits[i]`, reached only when `alice_bases[i] == basis`,
raises (`none`) when `i ≥ len(transmitted_bits)`. -/
def smStep (alice_bases transmitted_bits : List Int) (method : String)
    (basisR resultR : Nat → Int) (acc : Option (List Int × List Int)) (i : Nat) :
    Option (List Int × List Int) :=
  match acc with
  | none => none
  | some (bob_bases, bob_results) =>
    let basis := if method = "random" then basisR i else basisR i
    if alice_bases.getD i 0 = basis then
      match transmitted_bits.get? i with
      | none => none
      | some t => some (bob_bases ++ [basis], bob_results ++ [t])
    else some (bob_bases ++ [basis], bob_results ++ [resultR i])

/-- `simulate_measurement` (bob-app.py lines 102-133).  The cleaning step
`int(b) if b in [0, 1, '0', '1'] else 0` keeps ints 0/1 and zeroes everything
else.  Eve's pass (when `eve_present`) replaces position `i` by `eveB i` when
both `random.random() < 0.6` (`eveI i`) and `random.random() < 0.5` (`eveF i`)
fire.  The measurement loop (`smStep`) runs over `range(len(alice_bases))`. -/
def simulate_measurement (alice_bases alice_bits : List Int) (method : String)
    (eve_present : Bool) (eveI eveF : Nat → Bool) (eveB : Nat → Int)
    (basisR resultR : Nat → Int) : Option (List Int × List Int) :=
  let cleaned := alice_bits.map (fun b => if b = 0 ∨ b = 1 then b else 0)
  let transmitted_bits :=
    if eve_present then
      cleaned.mapIdx (fun i b => if eveI i then (if eveF i then eveB i else b) else b)
    else cleaned
  (List.range alice_bases.length).foldl
    (smStep alice_bases transmitted_bits method basisR resultR) (some ([], []))

/-! ### Key distillation (`generate_final_key`) and its SHA-256

`hashlib.sha256(byte_data).hexdigest()` is embedded as a full SHA-256 over
byte lists (`Nat` values below 256), with 32-bit words as `Nat` masked to
`2 ^ 32`. -/

/-- `2 ^ 32`, the word modulus of SHA-256. -/
def M32 : Nat := 4294967296

/-- Truncate to a 32-bit word. -/
def mask32 (n : Nat) : Nat := n % M32

/-- Right rotation of a 32-bit word by `n` places. -/
def rotr32 (n w : Nat) : Nat := mask32 ((w >>> n) ||| (w <<< (32 - n)))

/-- SHA-256 message-schedule sigma-0. -/
def sSig0 (x : Nat) : Nat := (rotr32 7 x) ^^^ (rotr32 18 x) ^^^ (x >>> 3)

/-- SHA-256 message-schedule sigma-1. -/
def sSig1 (x : Nat) : Nat := (rotr32 17 x) ^^^ (rotr32 19 x) ^^^ (x >>> 10)

/-- SHA-256 compression Sigma-0. -/
def bSig0 (x : Nat) : Nat := (rotr32 2 x) ^^^ (rotr32 13 x) ^^^ (rotr32 22 x)

/-- SHA-256 compression Sigma-1. -/
def bSig1 (x : Nat) : Nat := (rotr32 6 x) ^^^ (rotr32 11 x) ^^^ (rotr32 25 x)

/-- SHA-256 choose function (`¬x` as xor against the 32-bit mask). -/
def shaCh (x y z : Nat) : Nat := (x &&& y) ^^^ ((x ^^^ 4294967295) &&& z)

/-- SHA-256 majority function. -/
def shaMaj (x y z : Nat) : Nat := (x &&& y) ^^^ (x &&& z) ^^^ (y &&& z)

/-- The 64 SHA-256 round constants. -/
def shaK : List Nat :=
  [1116352408, 1899447441, 3049323471, 3921009573, 961987163, 1508970993,
   2453635748, 2870763221, 3624381080, 310598401, 607225278, 1426881987,
   1925078388, 2162078206, 2614888103, 3248222580, 3835390401, 4022224774,
   264347078, 604807628, 770255983, 1249150122, 1555081692, 1996064986,
   2554220882, 2821834349, 2952996808, 3210313671, 3336571891, 3584528711,
   113926993, 338241895, 666307205, 773529912, 1294757372, 1396182291,
   1695183700, 1986661051, 2177026350, 2456956037, 2730485921, 2820302411,
   3259730800, 3345764771, 3516065817, 3600352804, 4094571909, 275423344,
   430227734, 506948616, 659060556, 883997877, 958139571, 1322822218,
   1537002063, 1747873779, 1955562222, 2024104815, 2227730452, 2361852424,
   2428436474, 2756734187, 3204031479, 3329325298]

/-- The eight 32-bit hash-state words of SHA-256. -/
structure Sha256Hash where
  (h0 h1 h2 h3 h4 h5 h6 h7 : Nat)

/-- The SHA-256 initial hash value. -/
def shaInit : Sha256Hash :=
  ⟨1779033703, 3144134277, 1013904242, 2773480762,
   1359893119, 2600822924, 528734635, 1541459225⟩

/-- The eight working registers of a SHA-256 round. -/
structure Sha256Reg where
  (a b c d e f g hh : Nat)

/-- One SHA-256 compression round with round constant `k` and schedule word `w`. -/
def shaRound (k w : Nat) (r : Sha256Reg) : Sha256Reg :=
  let t1 := mask32 (r.hh + bSig1 r.e + shaCh r.e r.f r.g + k + w)
  let t2 := mask32 (bSig0 r.a + shaMaj r.a r.b r.c)
  ⟨mask32 (t1 + t2), r.a, r.b, r.c, mask32 (r.d + t1), r.e, r.f, r.g⟩

/-- Split a list into consecutive chunks; the first chunk is the first `n`
elements (every chunk is nonempty; used with `n = 64` for SHA-256 blocks). -/
def chunksOf {α : Type} (n : Nat) : List α → List (List α)
  | [] => []
  | x :: xs => (x :: xs.take (n - 1)) :: chunksOf n (xs.drop (n - 1))
termination_by l => l.length
decreasing_by simp [List.length_drop]; omega

/-- The sixteen big-endian 32-bit words of a 64-byte SHA-256 block. -/
def shaToWords (block : List Nat) : List Nat :=
  (List.range 16).map (fun i =>
    block.getD (4 * i) 0 * 16777216 + block.getD (4 * i + 1) 0 * 65536 +
      block.getD (4 * i + 2) 0 * 256 + block.getD (4 * i + 3) 0)

/-- Extend sixteen schedule words to sixty-four. -/
def shaSchedule (ws : List Nat) : List Nat :=
  (List.range 48).foldl
    (fun w _ =>
      let n := w.length
      w ++ [mask32 (sSig1 (w.getD (n - 2) 0) + w.getD (n - 7) 0 +
        sSig0 (w.getD (n - 15) 0) + w.getD (n - 16) 0)])
    ws

/-- SHA-256 compression of one 64-byte block into the running hash. -/
def shaCompress (h : Sha256Hash) (block : List Nat) : Sha256Hash :=
  let ws := shaSchedule (shaToWords block)
  let r0 : Sha256Reg := ⟨h.h0, h.h1, h.h2, h.h3, h.h4, h.h5, h.h6, h.h7⟩
  let r := (List.range 64).foldl
    (fun r i => shaRound (shaK.getD i 0) (ws.getD i 0) r) r0
  ⟨mask32 (h.h0 + r.a), mask32 (h.h1 + r.b), mask32 (h.h2 + r.c),
   mask32 (h.h3 + r.d), mask32 (h.h4 + r.e), mask32 (h.h5 + r.f),
   mask32 (h.h6 + r.g), mask32 (h.h7 + r.hh)⟩

/-- SHA-256 padding: append `0x80`, zeros to 56 mod 64, and the bit length as
eight big-endian bytes. -/
def shaPad (msg : List Nat) : List Nat :=
  let L := msg.length
  msg ++ [128] ++ List.replicate ((120 - ((L + 1) % 64)) % 64) 0 ++
    (List.range 8).map (fun i => ((8 * L) >>> (8 * (7 - i))) &&& 255)

/-- The SHA-256 hash state of a byte sequence. -/
def sha256 (msg : List Nat) : Sha256Hash :=
  (chunksOf 64 (shaPad msg)).foldl shaCompress shaInit

/-- The sixteen lowercase hexadecimal digits. -/
def hexDigitChars : List Char := "0123456789abcdef".data

/-- The hexadecimal digit of `n % 16`. -/
def hexChar (n : Nat) : Char := hexDigitChars.getD (n % 16) '0'

/-- The eight hexadecimal digits of a 32-bit word, most significant first. -/
def wordHex (w : Nat) : List Char :=
  [hexChar (w >>> 28), hexChar (w >>> 24), hexChar (w >>> 20), hexChar (w >>> 16),
   hexChar (w >>> 12), hexChar (w >>> 8), hexChar (w >>> 4), hexChar w]

/-- `hashlib.sha256(byte_data).hexdigest()`: the 64-character lowercase
hexadecimal rendering of the SHA-256 digest of `byte_data`. -/
def sha256hex (byte_data : List Nat) : String :=
  let h := sha256 byte_data
  String.mk (wordHex h.h0 ++ wordHex h.h1 ++ wordHex h.h2 ++ wordHex h.h3 ++
    wordHex h.h4 ++ wordHex h.h5 ++ wordHex h.h6 ++ wordHex h.h7)

/-- Python `str(int(b))` for an int `b`: its decimal rendering, as characters. -/
def pyStrInt (b : Int) : List Char := (toString b).data

/-- Python `int(s, 2)` restricted to the strings reachable from
`generate_final_key` (digits and a possible leading minus sign): succeeds
exactly on nonempty all-`0`/`1` strings.  On the reachable strings this also
covers the subsequent `bytes(...)` range check: a chunk with a digit 2-9
makes `int` raise, and a chunk parsing to a negative value makes `bytes`
raise, both caught by the same `except`. -/
def bitChunkVal (s : List Char) : Option Nat :=
  if s ≠ [] ∧ s.all (fun c => c == '0' || c == '1') then
    some (s.foldl (fun acc c => 2 * acc + (if c = '1' then 1 else 0)) 0)
  else none

/-- `bytes(int(bit_string[i:i+8], 2) for i in range(0, len(bit_string), 8))`:
parse successive 8-character chunks as binary bytes; any raising chunk makes
the whole conversion raise (`none`). -/
def parseBits : List Char → Option (List Nat)
  | [] => some []
  | c :: cs =>
    match bitChunkVal (c :: cs.take 7), parseBits (cs.drop 7) with
    | some b, some bs => some (b :: bs)
    | _, _ => none
termination_by l => l.length
decreasing_by simp [List.length_drop]; omega

/-- `generate_final_key` (alice-app.py lines 171-186).  Guard
`not sifted_bits or len(sifted_bits) < 4`; bit string from `str(int(b))` per
bit; `'0'`-padding to a multiple of 8; byte conversion inside `try`, every
`ValueError`/`TypeError`/`OverflowError` returning `None`. -/
def generate_final_key (sifted_bits : List Int) : Option String :=
  if sifted_bits.isEmpty ∨ sifted_bits.length < 4 then none
  else
    let bit_string := (sifted_bits.map pyStrInt).flatten
    let padded := bit_string ++ List.replicate ((8 - bit_string.length % 8) % 8) '0'
    match parseBits padded with
    | none => none
    | some byte_data => some (sha256hex byte_data)

/-- `generate_final_key` (streamlit-keygen.py lines 233-282).  Same guard;
then every bit not in `{0, 1}` is coerced to `0` (`clean_bits`); the resulting
bit string is checked to be nonempty and all-binary before padding; byte
conversion and hashing as in the alice-app version. -/
def generate_final_key_streamlit (sifted_bits : List Int) : Option String :=
  if sifted_bits.isEmpty ∨ sifted_bits.length < 4 then none
  else
    let clean_bits := sifted_bits.map (fun b => if b = 0 ∨ b = 1 then b else 0)
    let bit_string := (clean_bits.map pyStrInt).flatten
    if bit_string.isEmpty ∨ ¬ (bit_string.all (fun c => c == '0' || c == '1')) then none
    else
      let padded := bit_string ++ List.replicate ((8 - bit_string.length % 8) % 8) '0'
      match parseBits padded with
      | none => none
      | some byte_data => some (sha256hex byte_data)

/-- The `st.session_state` keys touched by streamlit-keygen.py.
`init_session_state` (lines 84-102) unconditionally creates the first nine;
`transmitted_bits`, `eve_activity` and `matching_indices` are created later in
the run and may be absent, modeled as `Option` (`none` = key not present). -/
structure SessionState where
  alice_bits : List Int
  alice_bases : List Int
  bob_bases : List Int
  bob_results : List Int
  sifted_bits : List Int
  final_key : String
  phase : String
  error_rate : ℚ
  eve_present : Bool
  transmitted_bits : Option (List Int)
  eve_activity : Option (List String)
  matching_indices : Option (List Int)

/-- The state produced by `init_session_state` (streamlit-keygen.py lines
84-102) on a fresh session: every key it checks is missing and gets its
default; the three late keys are not created. -/
def init_session_state : SessionState :=
  { alice_bits := [], alice_bases := [], bob_bases := [], bob_results := []
    sifted_bits := [], final_key := "", phase := "setup", error_rate := 0
    eve_present := false, transmitted_bits := none, eve_activity := none
    matching_indices := none }

/-- `reset_protocol` (streamlit-keygen.py lines 104-120): overwrites the eight
listed keys with their defaults and deletes `transmitted_bits`, `eve_activity`
and `matching_indices` when present (`eve_present` is left untouched). -/
def reset_protocol (s : SessionState) : SessionState :=
  { s with
    alice_bits := [], alice_bases := [], bob_bases := [], bob_results := []
    sifted_bits := [], final_key := "", phase := "setup", error_rate := 0
    transmitted_bits := none, eve_activity := none, matching_indices := none }

/-- The shared-state document of alice-app.py / bob-app.py (the JSON file both
front ends poll). Field set from `load_shared_state` (alice-app.py lines
75-103). -/
structure SharedState where
  alice_bits : List Int
  alice_bases : List Int
  alice_message : String
  alice_selected_partner : String
  bob_bases : List Int
  bob_results : List Int
  bob_message : String
  huot_bases : List Int
  huot_results : List Int
  huot_message : String
  phase : String
  sifted_bits : List Int
  matching_indices : List Int
  error_rate : ℚ
  final_key : String
  eve_present : Bool
  alice_ready : Bool
  bob_ready : Bool
  huot_ready : Bool

/-- The default document `load_shared_state` (alice-app.py lines 75-103)
returns when the shared file is missing or unreadable. -/
def default_shared_state : SharedState :=
  { alice_bits := [], alice_bases := [], alice_message := ""
    alice_selected_partner := "bob", bob_bases := [], bob_results := []
    bob_message := "", huot_bases := [], huot_results := [], huot_message := ""
    phase := "greeting", sifted_bits := [], matching_indices := []
    error_rate := 0, final_key := "", eve_present := false
    alice_ready := false, bob_ready := false, huot_ready := false }

/-- The reset action of alice-app.py (lines 596-599): it unlinks the shared
file, so whatever document was live, the next `load_shared_state` observes the
default document. -/
def reset_shared_state (_ : SharedState) : SharedState :=
  default_shared_state

end BB84

namespace BB84

/-! ### Helper lemmas -/

lemma sift_foldl (abas pb pr : List Int) (l : List Nat) (s m : List Int) :
    l.foldl
      (fun acc i =>
        if abas.getD i 0 = pb.getD i 0 then
          (acc.1 ++ [pr.getD i 0], acc.2 ++ [Int.ofNat i])
        else acc) (s, m)
    = (s ++ (l.filter (fun i => abas.getD i 0 == pb.getD i 0)).map (fun i => pr.getD i 0),
       m ++ (l.filter (fun i => abas.getD i 0 == pb.getD i 0)).map Int.ofNat) := by
  induction l generalizing s m with
  | nil => simp
  | cons x xs ih =>
    simp only [List.foldl_cons, List.filter_cons]
    by_cases h : abas.getD x 0 = pb.getD x 0
    · rw [if_pos h, ih, show (abas.getD x 0 == pb.getD x 0) = true by simpa using h]
      simp
    · rw [if_neg h, ih, show (abas.getD x 0 == pb.getD x 0) = false by simpa using h]
      simp

/-- `perform_sifting` in closed form: filter the in-range indices by basis
agreement, read the partner results off the kept indices. -/
lemma perform_sifting_eq (ab abas pb pr : List Int) :
    perform_sifting ab abas pb pr
      = (((List.range (sift_min_length ab abas pb pr)).filter
            (fun i => abas.getD i 0 == pb.getD i 0)).map (fun i => pr.getD i 0),
         ((List.range (sift_min_length ab abas pb pr)).filter
            (fun i => abas.getD i 0 == pb.getD i 0)).map Int.ofNat) := by
  unfold perform_sifting
  rw [sift_foldl]
  simp

/-- C1: `perform_sifting` truncates to the common minimum length of its four
inputs and returns `(siftedBits, matchingIndices)` where `matchingIndices` is
exactly the in-order list of indices below that length at which the two basis
lists agree (hence strictly increasing, every entry below the common minimum
length), `siftedBits` has the same length, `siftedBits[k]` is
`receiverResults[matchingIndices[k]]` for every `k`, and both results are
empty (not a failure) when no bases match. -/
theorem C1_sifting_characterization
    (ab abas pb pr : List Int) (sifted matching : List Int)
    (h : perform_sifting ab abas pb pr = (sifted, matching)) :
    matching = ((List.range (sift_min_length ab abas pb pr)).filter
        (fun i => abas.getD i 0 == pb.getD i 0)).map Int.ofNat
    ∧ matching.Pairwise (· < ·)
    ∧ (∀ x ∈ matching, 0 ≤ x ∧ x < (sift_min_length ab abas pb pr : Int))
    ∧ sifted.length = matching.length
    ∧ (∀ k, k < matching.length →
        sifted.getD k 0 = pr.getD (matching.getD k 0).toNat 0)
    ∧ ((∀ i, i < sift_min_length ab abas pb pr → abas.getD i 0 ≠ pb.getD i 0) →
        sifted = [] ∧ matching = []) := by
  rw [perform_sifting_eq] at h
  injection h with h1 h2
  subst h1
  subst h2
  refine ⟨rfl, ?_, ?_, ?_, ?_, ?_⟩
  · rw [List.pairwise_map]
    exact ((List.pairwise_lt_range _).filter _).imp
      (fun hab => Int.ofNat_lt.mpr hab)
  · intro x hx
    simp only [List.mem_map, List.mem_filter, List.mem_range] at hx
    obtain ⟨i, ⟨hi, _⟩, rfl⟩ := hx
    exact ⟨Int.ofNat_nonneg i, Int.ofNat_lt.mpr hi⟩
  · simp
  · intro k hk
    simp only [List.length_map] at hk
    simp only [List.getD_eq_getElem?_getD] at hk ⊢
    simp only [List.getElem?_map, List.getElem?_eq_getElem hk]
    simp
  · intro hno
    have hfil : (List.range (sift_min_length ab abas pb pr)).filter
        (fun i => abas.getD i 0 == pb.getD i 0) = [] := by
      refine List.filter_eq_nil_iff.mpr ?_
      intro a ha
      simpa using hno a (List.mem_range.mp ha)
    rw [hfil]
    exact ⟨rfl, rfl⟩

/-- C1 witness: the characterization applied at a concrete input. -/
theorem C1_sifting_characterization_witness :
    (perform_sifting [1, 0] [0, 1] [0, 0] [1, 1]).1.getD 0 0 =
      [(1 : Int), 1].getD
        (((perform_sifting [1, 0] [0, 1] [0, 0] [1, 1]).2.getD 0 0).toNat) 0
    ∧ (perform_sifting [1, 0] [0, 1] [0, 0] [1, 1]).1 ≠ [] := by
  have h := C1_sifting_characterization [1, 0] [0, 1] [0, 0] [1, 1]
    (perform_sifting [1, 0] [0, 1] [0, 0] [1, 1]).1
    (perform_sifting [1, 0] [0, 1] [0, 0] [1, 1]).2 rfl
  exact ⟨h.2.2.2.2.1 0 (by decide), by decide⟩

lemma errFold_none (ab sb mi : List Int) (l : List Nat) :
    l.foldl (errStep ab sb mi) none = none := by
  induction l with
  | nil => rfl
  | cons x xs ih => simpa [List.foldl_cons, errStep] using ih

lemma errStep_cases (ab sb mi : List Int) (e0 x : Nat) :
    errStep ab sb mi (some e0) x = none ∨
      errStep ab sb mi (some e0) x = some e0 ∨
      errStep ab sb mi (some e0) x = some (e0 + 1) := by
  simp only [errStep]
  by_cases hg : x < mi.length ∧ mi.getD x 0 < (ab.length : Int)
  · rw [if_pos hg]
    cases hpi : pyIndex ab (mi.getD x 0) with
    | none => exact Or.inl rfl
    | some a =>
      by_cases hne : a ≠ sb.getD x 0
      · exact Or.inr (Or.inr (if_pos hne))
      · exact Or.inr (Or.inl (if_neg hne))
  · exact Or.inr (Or.inl (if_neg hg))

lemma errFold_le (ab sb mi : List Int) :
    ∀ (l : List Nat) (e0 v : Nat),
      l.foldl (errStep ab sb mi) (some e0) = some v → v ≤ e0 + l.length := by
  intro l
  induction l with
  | nil =>
    intro e0 v h
    simp only [List.foldl_nil, Option.some.injEq] at h
    omega
  | cons x xs ih =>
    intro e0 v h
    simp only [List.foldl_cons] at h
    rcases errStep_cases ab sb mi e0 x with hs | hs | hs
    · rw [hs, errFold_none] at h
      exact absurd h (by simp)
    · rw [hs] at h
      have := ih e0 v h
      simp only [List.length_cons]
      omega
    · rw [hs] at h
      have := ih (e0 + 1) v h
      simp only [List.length_cons]
      omega

lemma pyIndex_eq_some {α : Type} (xs : List α) (i : Int)
    (h1 : -(xs.length : Int) ≤ i) (h2 : i < (xs.length : Int)) :
    ∃ a, pyIndex xs i = some a := by
  unfold pyIndex
  by_cases h0 : 0 ≤ i
  · rw [if_pos h0]
    have hlt : i.toNat < xs.length := by omega
    exact ⟨xs.get ⟨i.toNat, hlt⟩, List.get?_eq_get hlt⟩
  · rw [if_neg h0]
    have hle : (-i).toNat ≤ xs.length := by omega
    rw [if_pos hle]
    have hlt : xs.length - (-i).toNat < xs.length := by omega
    exact ⟨xs.get ⟨_, hlt⟩, List.get?_eq_get hlt⟩

lemma errFold_some (ab sb mi : List Int)
    (H : ∀ v ∈ mi, v < (ab.length : Int) → -(ab.length : Int) ≤ v) :
    ∀ (l : List Nat) (e0 : Nat),
      l.foldl (errStep ab sb mi) (some e0)
        = some (e0 + l.countP (natErrP ab sb mi)) := by
  intro l
  induction l with
  | nil => simp
  | cons x xs ih =>
    intro e0
    simp only [List.foldl_cons, List.countP_cons]
    by_cases hg : x < mi.length ∧ mi.getD x 0 < (ab.length : Int)
    · have hmem : mi.getD x 0 ∈ mi := by
        have hx : x < mi.length := hg.1
        simp only [List.getD_eq_getElem?_getD, List.getElem?_eq_getElem hx,
          Option.getD_some]
        exact List.getElem_mem hx
      obtain ⟨a, ha⟩ := pyIndex_eq_some ab (mi.getD x 0) (H _ hmem hg.2) hg.2
      have hstep : errStep ab sb mi (some e0) x =
          if a ≠ sb.getD x 0 then some (e0 + 1) else some e0 := by
        simp only [errStep]
        rw [if_pos hg, ha]
      have hp : natErrP ab sb mi x = (a != sb.getD x 0) := by
        unfold natErrP
        rw [ha, decide_eq_true hg.1, decide_eq_true hg.2]
        simp
      by_cases hne : a = sb.getD x 0
      · have hb : (a != sb.getD x 0) = false := by simpa using hne
        rw [hstep, if_neg (by simpa using hne), ih, hp, hb]
        simp
      · have hb : (a != sb.getD x 0) = true := by simpa using hne
        rw [hstep, if_pos hne, ih, hp, hb]
        simp only [eq_self_iff_true, if_true, Option.some.injEq]
        omega
    · have hstep : errStep ab sb mi (some e0) x = some e0 := if_neg hg
      have hp : natErrP ab sb mi x = false := by
        unfold natErrP
        rcases not_and_or.mp hg with hx | hx
        · rw [decide_eq_false hx]
          simp
        · rw [decide_eq_false hx]
          simp
      rw [hstep, ih, hp]
      simp

/-- Inversion of a successful `error_checking` call. -/
lemma error_checking_some (ab sb mi : List Int) (eve : Bool) (inject : Nat)
    (r : ℚ) (e : Nat) (rem : List Int)
    (h : error_checking ab sb mi eve inject = some (r, e, rem)) :
    (sb.length = 0 ∧ r = 0 ∧ e = 0 ∧ rem = []) ∨
    (sb.length ≠ 0 ∧
      ∃ natural,
        (List.range sb.length).foldl (errStep ab sb mi) (some 0) = some natural
        ∧ e = (if eve then natural + inject else natural)
        ∧ r = (e : ℚ) / (sb.length : ℚ)
        ∧ rem = (if 0 < min (e + 1) (max 1 (sb.length / 8)) ∧
              min (e + 1) (max 1 (sb.length / 8)) < sb.length then
            sb.take (sb.length - min (e + 1) (max 1 (sb.length / 8)))
          else sb)) := by
  unfold error_checking at h
  by_cases h0 : sb.length = 0
  · left
    rw [if_pos h0] at h
    simp only [Option.some.injEq, Prod.mk.injEq] at h
    exact ⟨h0, h.1.symm, h.2.1.symm, h.2.2.symm⟩
  · right
    rw [if_neg h0] at h
    cases hf : (List.range sb.length).foldl (errStep ab sb mi) (some 0) with
    | none =>
      rw [hf] at h
      exact absurd h (by simp)
    | some natural =>
      rw [hf] at h
      simp only [Option.some.injEq, Prod.mk.injEq] at h
      obtain ⟨hr, he, hrem⟩ := h
      refine ⟨h0, natural, rfl, he.symm, ?_, ?_⟩
      · rw [← hr, ← he]
        rw [if_pos (Nat.pos_of_ne_zero h0)]
      · rw [← hrem, ← he]

lemma bmFold_none (ab tb : List Int) (method : String) (bR rR : Nat → Int)
    (l : List Nat) : l.foldl (bmStep ab tb method bR rR) none = none := by
  induction l with
  | nil => rfl
  | cons x xs ih => simpa [List.foldl_cons, bmStep] using ih

lemma bmStep_some (ab tb : List Int) (method : String) (bR rR : Nat → Int)
    (bb br : List Int) (x : Nat) (hx : x < ab.length) :
    ∃ basis result, bmStep ab tb method bR rR (some (bb, br)) x
        = some (bb ++ [basis], br ++ [result]) := by
  refine ⟨if method = "random" then bR x else bR x,
    if ab.get ⟨x, hx⟩ = (if method = "random" then bR x else bR x) then tb.getD x 0
    else rR x, ?_⟩
  simp only [bmStep]
  rw [List.get?_eq_get hx]

lemma bmFold_ok (ab tb : List Int) (method : String) (bR rR : Nat → Int) :
    ∀ (l : List Nat) (bb br : List Int), (∀ i ∈ l, i < ab.length) →
      ∃ bb2 br2,
        l.foldl (bmStep ab tb method bR rR) (some (bb, br)) = some (bb2, br2)
        ∧ bb2.length = bb.length + l.length ∧ br2.length = br.length + l.length := by
  intro l
  induction l with
  | nil =>
    intro bb br _
    exact ⟨bb, br, rfl, by simp, by simp⟩
  | cons x xs ih =>
    intro bb br hmem
    have hx : x < ab.length := hmem x (List.mem_cons_self x xs)
    obtain ⟨basis, result, hstep⟩ := bmStep_some ab tb method bR rR bb br x hx
    simp only [List.foldl_cons, hstep]
    obtain ⟨bb2, br2, hf, h1, h2⟩ := ih (bb ++ [basis]) (br ++ [result])
      (fun i hi => hmem i (List.mem_cons_of_mem _ hi))
    refine ⟨bb2, br2, hf, ?_, ?_⟩
    · simp only [List.length_append, List.length_cons, List.length_nil] at h1 ⊢
      omega
    · simp only [List.length_append, List.length_cons, List.length_nil] at h2 ⊢
      omega

lemma smFold_none (ab tbl : List Int) (method : String) (bR rR : Nat → Int)
    (l : List Nat) : l.foldl (smStep ab tbl method bR rR) none = none := by
  induction l with
  | nil => rfl
  | cons x xs ih => simpa [List.foldl_cons, smStep] using ih

lemma smStep_some (ab tbl : List Int) (method : String) (bR rR : Nat → Int)
    (bb br : List Int) (x : Nat) (hx : x < tbl.length) :
    ∃ basis result, smStep ab tbl method bR rR (some (bb, br)) x
        = some (bb ++ [basis], br ++ [result]) := by
  simp only [smStep]
  by_cases heq : ab.getD x 0 = (if method = "random" then bR x else bR x)
  · refine ⟨if method = "random" then bR x else bR x, tbl.get ⟨x, hx⟩, ?_⟩
    rw [if_pos heq, List.get?_eq_get hx]
  · exact ⟨if method = "random" then bR x else bR x, rR x, if_neg heq⟩

lemma smFold_ok (ab tbl : List Int) (method : String) (bR rR : Nat → Int) :
    ∀ (l : List Nat) (bb br : List Int), (∀ i ∈ l, i < tbl.length) →
      ∃ bb2 br2,
        l.foldl (smStep ab tbl method bR rR) (some (bb, br)) = some (bb2, br2)
        ∧ bb2.length = bb.length + l.length ∧ br2.length = br.length + l.length := by
  intro l
  induction l with
  | nil =>
    intro bb br _
    exact ⟨bb, br, rfl, by simp, by simp⟩
  | cons x xs ih =>
    intro bb br hmem
    have hx : x < tbl.length := hmem x (List.mem_cons_self x xs)
    obtain ⟨basis, result, hstep⟩ := smStep_some ab tbl method bR rR bb br x hx
    simp only [List.foldl_cons, hstep]
    obtain ⟨bb2, br2, hf, h1, h2⟩ := ih (bb ++ [basis]) (br ++ [result])
      (fun i hi => hmem i (List.mem_cons_of_mem _ hi))
    refine ⟨bb2, br2, hf, ?_, ?_⟩
    · simp only [List.length_append, List.length_cons, List.length_nil] at h1 ⊢
      omega
    · simp only [List.length_append, List.length_cons, List.length_nil] at h2 ⊢
      omega

lemma gq_foldl (method : String) (bitR baseR : Nat → Int) (l : List Nat)
    (a b : List Int) :
    l.foldl (fun acc i =>
        if method = "random" then (acc.1 ++ [bitR i], acc.2 ++ [baseR i])
        else (acc.1 ++ [bitR i], acc.2 ++ [baseR i])) (a, b)
      = (a ++ l.map bitR, b ++ l.map baseR) := by
  induction l generalizing a b with
  | nil => simp
  | cons x xs ih =>
    simp only [List.foldl_cons]
    by_cases hm : method = "random"
    · rw [if_pos hm, ih]
      simp
    · rw [if_neg hm, ih]
      simp

lemma pyStrInt_zero : pyStrInt 0 = ['0'] := by decide

lemma pyStrInt_one : pyStrInt 1 = ['1'] := by decide

lemma bitString_length (bits : List Int) (h : ∀ b ∈ bits, b = 0 ∨ b = 1) :
    (bits.map pyStrInt).flatten.length = bits.length := by
  induction bits with
  | nil => simp
  | cons x xs ih =>
    have ihx := ih (fun b hb => h b (List.mem_cons_of_mem _ hb))
    simp only [List.map_cons, List.flatten_cons, List.length_append, List.length_cons,
      ihx]
    rcases h x (List.mem_cons_self x xs) with rfl | rfl
    · rw [pyStrInt_zero]
      simp [Nat.add_comm]
    · rw [pyStrInt_one]
      simp [Nat.add_comm]

lemma bitString_chars (bits : List Int) (h : ∀ b ∈ bits, b = 0 ∨ b = 1) :
    ∀ c ∈ (bits.map pyStrInt).flatten, c = '0' ∨ c = '1' := by
  induction bits with
  | nil => simp
  | cons x xs ih =>
    intro c hc
    simp only [List.map_cons, List.flatten_cons, List.mem_append] at hc
    rcases hc with hc | hc
    · rcases h x (List.mem_cons_self x xs) with rfl | rfl
      · rw [pyStrInt_zero] at hc
        simp only [List.mem_singleton] at hc
        exact Or.inl hc
      · rw [pyStrInt_one] at hc
        simp only [List.mem_singleton] at hc
        exact Or.inr hc
    · exact ih (fun b hb => h b (List.mem_cons_of_mem _ hb)) c hc

lemma parseBits_isSome_aux :
    ∀ (n : Nat) (l : List Char), l.length ≤ n → (∀ c ∈ l, c = '0' ∨ c = '1') →
      ∃ bs, parseBits l = some bs := by
  intro n
  induction n with
  | zero =>
    intro l hl _
    have hnil : l = [] := List.eq_nil_of_length_eq_zero (by omega)
    exact ⟨[], by rw [hnil]; simp [parseBits]⟩
  | succ n ih =>
    intro l hl hc
    cases l with
    | nil => exact ⟨[], by simp [parseBits]⟩
    | cons c cs =>
      have hal : (c :: cs.take 7).all (fun x => x == '0' || x == '1') = true := by
        rw [List.all_eq_true]
        intro x hx
        have hx2 : x ∈ c :: cs := by
          rcases List.mem_cons.mp hx with rfl | hx3
          · exact List.mem_cons_self x cs
          · exact List.mem_cons_of_mem _ (List.mem_of_mem_take hx3)
        rcases hc x hx2 with rfl | rfl <;> simp
      have hchunk : bitChunkVal (c :: cs.take 7)
          = some ((c :: cs.take 7).foldl
              (fun acc ch => 2 * acc + (if ch = '1' then 1 else 0)) 0) := by
        unfold bitChunkVal
        rw [if_pos ⟨List.cons_ne_nil c (cs.take 7), hal⟩]
      obtain ⟨bs, hbs⟩ := ih (cs.drop 7)
        (by
          have : cs.length ≤ n := by
            simpa [List.length_cons] using Nat.lt_succ_iff.mp (Nat.lt_of_lt_of_le
              (Nat.lt_succ_of_le (Nat.le_refl _)) hl)
          simp only [List.length_drop]
          omega)
        (fun x hx => hc x (List.mem_cons_of_mem _ (List.mem_of_mem_drop hx)))
      refine ⟨(c :: cs.take 7).foldl
        (fun acc ch => 2 * acc + (if ch = '1' then 1 else 0)) 0 :: bs, ?_⟩
      simp only [parseBits]
      rw [hchunk, hbs]

lemma parseBits_isSome (l : List Char) (h : ∀ c ∈ l, c = '0' ∨ c = '1') :
    ∃ bs, parseBits l = some bs :=
  parseBits_isSome_aux l.length l (le_refl _) h

lemma hexChar_mem (n : Nat) : hexChar n ∈ hexDigitChars := by
  have h : n % 16 < hexDigitChars.length := by
    have h2 : n % 16 < 16 := Nat.mod_lt _ (by omega)
    have h3 : hexDigitChars.length = 16 := by decide
    omega
  unfold hexChar
  rw [List.getD_eq_getElem?_getD, List.getElem?_eq_getElem h, Option.getD_some]
  exact List.getElem_mem h

lemma wordHex_mem (w : Nat) : ∀ c ∈ wordHex w, c ∈ hexDigitChars := by
  intro c hc
  simp only [wordHex, List.mem_cons, List.not_mem_nil, or_false] at hc
  rcases hc with rfl | rfl | rfl | rfl | rfl | rfl | rfl | rfl
  all_goals exact hexChar_mem _

lemma sha256hex_length (bd : List Nat) : (sha256hex bd).length = 64 := rfl

lemma sha256hex_hex (bd : List Nat) :
    ∀ c ∈ (sha256hex bd).data, c ∈ hexDigitChars := by
  intro c hc
  have hc2 : c ∈ wordHex (sha256 bd).h0 ++ wordHex (sha256 bd).h1 ++
      wordHex (sha256 bd).h2 ++ wordHex (sha256 bd).h3 ++ wordHex (sha256 bd).h4 ++
      wordHex (sha256 bd).h5 ++ wordHex (sha256 bd).h6 ++ wordHex (sha256 bd).h7 := hc
  simp only [List.mem_append, or_assoc] at hc2
  rcases hc2 with h | h | h | h | h | h | h | h
  all_goals exact wordHex_mem _ c h

lemma generate_final_key_success (bits : List Int) (h4 : 4 ≤ bits.length)
    (hb : ∀ b ∈ bits, b = 0 ∨ b = 1) :
    ∃ byte_data,
      parseBits ((bits.map pyStrInt).flatten
          ++ List.replicate ((8 - (bits.map pyStrInt).flatten.length % 8) % 8) '0')
        = some byte_data
      ∧ generate_final_key bits = some (sha256hex byte_data) := by
  have hchars : ∀ c ∈ (bits.map pyStrInt).flatten
      ++ List.replicate ((8 - (bits.map pyStrInt).flatten.length % 8) % 8) '0',
      c = '0' ∨ c = '1' := by
    intro c hc
    rcases List.mem_append.mp hc with hc | hc
    · exact bitString_chars bits hb c hc
    · exact Or.inl (List.eq_of_mem_replicate hc)
  obtain ⟨bs, hbs⟩ := parseBits_isSome _ hchars
  refine ⟨bs, hbs, ?_⟩
  have hguard : ¬(bits.isEmpty = true ∨ bits.length < 4) := by
    intro hcon
    rcases hcon with hc | hc
    · rw [List.isEmpty_iff] at hc
      rw [hc] at h4
      simp at h4
    · omega
  unfold generate_final_key
  rw [if_neg hguard]
  show (match parseBits ((bits.map pyStrInt).flatten
      ++ List.replicate ((8 - (bits.map pyStrInt).flatten.length % 8) % 8) '0') with
    | none => none
    | some byte_data => some (sha256hex byte_data)) = some (sha256hex bs)
  rw [hbs]

lemma cleanBits_01 (bits : List Int) :
    ∀ b ∈ bits.map (fun b => if b = 0 ∨ b = 1 then b else 0), b = 0 ∨ b = 1 := by
  intro b hb
  obtain ⟨a, _, rfl⟩ := List.mem_map.mp hb
  by_cases ha : a = 0 ∨ a = 1
  · rw [if_pos ha]
    exact ha
  · rw [if_neg ha]
    exact Or.inl rfl

lemma generate_final_key_streamlit_success (bits : List Int) (h4 : 4 ≤ bits.length) :
    ∃ byte_data,
      parseBits (((bits.map (fun b => if b = 0 ∨ b = 1 then b else 0)).map
            pyStrInt).flatten
          ++ List.replicate ((8 - ((bits.map (fun b => if b = 0 ∨ b = 1 then b else 0)).map
            pyStrInt).flatten.length % 8) % 8) '0')
        = some byte_data
      ∧ generate_final_key_streamlit bits = some (sha256hex byte_data) := by
  have hcl := cleanBits_01 bits
  have hchars : ∀ c ∈ ((bits.map (fun b => if b = 0 ∨ b = 1 then b else 0)).map
        pyStrInt).flatten
      ++ List.replicate ((8 - ((bits.map (fun b => if b = 0 ∨ b = 1 then b else 0)).map
        pyStrInt).flatten.length % 8) % 8) '0',
      c = '0' ∨ c = '1' := by
    intro c hc
    rcases List.mem_append.mp hc with hc | hc
    · exact bitString_chars _ hcl c hc
    · exact Or.inl (List.eq_of_mem_replicate hc)
  obtain ⟨bs, hbs⟩ := parseBits_isSome _ hchars
  refine ⟨bs, hbs, ?_⟩
  have hguard : ¬(bits.isEmpty = true ∨ bits.length < 4) := by
    intro hcon
    rcases hcon with hc | hc
    · rw [List.isEmpty_iff] at hc
      rw [hc] at h4
      simp at h4
    · omega
  have hlen2 : ((bits.map (fun b => if b = 0 ∨ b = 1 then b else 0)).map
      pyStrInt).flatten.length = bits.length := by
    rw [bitString_length _ hcl]
    simp
  have hval : ¬(((bits.map (fun b => if b = 0 ∨ b = 1 then b else 0)).map
        pyStrInt).flatten.isEmpty = true
      ∨ ¬(((bits.map (fun b => if b = 0 ∨ b = 1 then b else 0)).map
        pyStrInt).flatten.all (fun c => c == '0' || c == '1') = true)) := by
    intro hcon
    rcases hcon with hc | hc
    · rw [List.isEmpty_iff] at hc
      rw [hc] at hlen2
      simp at hlen2
      omega
    · apply hc
      rw [List.all_eq_true]
      intro x hx
      rcases bitString_chars _ hcl x hx with rfl | rfl <;> simp
  unfold generate_final_key_streamlit
  rw [if_neg hguard]
  show (if ((bits.map (fun b => if b = 0 ∨ b = 1 then b else 0)).map
        pyStrInt).flatten.isEmpty = true
      ∨ ¬(((bits.map (fun b => if b = 0 ∨ b = 1 then b else 0)).map
        pyStrInt).flatten.all (fun c => c == '0' || c == '1') = true) then none
    else
      match parseBits (((bits.map (fun b => if b = 0 ∨ b = 1 then b else 0)).map
            pyStrInt).flatten
          ++ List.replicate ((8 - ((bits.map (fun b => if b = 0 ∨ b = 1 then b else 0)).map
            pyStrInt).flatten.length % 8) % 8) '0') with
      | none => none
      | some byte_data => some (sha256hex byte_data)) = some (sha256hex bs)
  rw [if_neg hval, hbs]

lemma gfk_streamlit_eq (bits : List Int) (h4 : 4 ≤ bits.length) :
    generate_final_key_streamlit bits
      = generate_final_key (bits.map (fun b => if b = 0 ∨ b = 1 then b else 0)) := by
  obtain ⟨bs, hp, hs⟩ := generate_final_key_streamlit_success bits h4
  obtain ⟨bs2, hp2, ha⟩ := generate_final_key_success
    (bits.map (fun b => if b = 0 ∨ b = 1 then b else 0))
    (by simpa using h4) (cleanBits_01 bits)
  rw [hs, ha]
  rw [hp] at hp2
  rw [Option.some.injEq] at hp2
  rw [hp2]

/-- C3: whenever `error_checking` returns, it removed exactly the last
`sacrificeCount = min(errorCount + 1, max(1, totalBits / 8))` bits of
`siftedBits` unless `sacrificeCount ≥ totalBits`, in which case it removed
nothing; hence the remaining bits never outnumber the input and are nonempty
whenever the input is.  On empty `siftedBits` it returns `(0.0, 0, [])`. -/
theorem C3_sacrifice_policy (ab sb mi : List Int) (eve : Bool) (inject : Nat)
    (r : ℚ) (e : Nat) (rem : List Int)
    (h : error_checking ab sb mi eve inject = some (r, e, rem)) :
    (sb = [] → r = 0 ∧ e = 0 ∧ rem = [])
    ∧ rem = (if min (e + 1) (max 1 (sb.length / 8)) < sb.length then
        sb.take (sb.length - min (e + 1) (max 1 (sb.length / 8)))
      else sb)
    ∧ rem.length ≤ sb.length
    ∧ (sb ≠ [] → rem ≠ []) := by
  rcases error_checking_some ab sb mi eve inject r e rem h with
    ⟨h0, hr, he, hrem⟩ | ⟨h0, natural, _, _, _, hrem⟩
  · have hsb : sb = [] := List.length_eq_zero.mp h0
    subst hsb hrem
    refine ⟨fun _ => ⟨hr, he, rfl⟩, ?_, le_refl _, fun hne => absurd rfl hne⟩
    simp
  · have hsb : sb ≠ [] := fun hn => h0 (by simp [hn])
    have hpos : 0 < min (e + 1) (max 1 (sb.length / 8)) := by omega
    have hrem2 : rem = (if min (e + 1) (max 1 (sb.length / 8)) < sb.length then
        sb.take (sb.length - min (e + 1) (max 1 (sb.length / 8)))
      else sb) := by
      rw [hrem]
      by_cases hlt : min (e + 1) (max 1 (sb.length / 8)) < sb.length
      · rw [if_pos ⟨hpos, hlt⟩, if_pos hlt]
      · rw [if_neg (fun hand => hlt hand.2), if_neg hlt]
    refine ⟨fun hn => absurd hn hsb, hrem2, ?_, fun _ => ?_⟩
    · rw [hrem2]
      by_cases hlt : min (e + 1) (max 1 (sb.length / 8)) < sb.length
      · rw [if_pos hlt]
        simp [List.length_take]
      · rw [if_neg hlt]
    · rw [hrem2]
      by_cases hlt : min (e + 1) (max 1 (sb.length / 8)) < sb.length
      · rw [if_pos hlt]
        have : 0 < sb.length - min (e + 1) (max 1 (sb.length / 8)) := by omega
        intro hcon
        have := congrArg List.length hcon
        simp [List.length_take] at this
        omega
      · rw [if_neg hlt]
        exact hsb

/-- C3 witness: the policy applied at a concrete call. -/
theorem C3_sacrifice_policy_witness :
    ([(0 : Int), 0, 0].length ≤ [(0 : Int), 0, 0, 0].length)
    ∧ ([(0 : Int), 0, 0] ≠ []) := by
  have hec : error_checking [0] [0, 0, 0, 0] [] false 0 = some (0, 0, [0, 0, 0]) := by
    have hfold : (List.range 4).foldl (errStep [0] [0, 0, 0, 0] []) (some 0)
        = some 0 := by decide
    unfold error_checking
    norm_num [hfold, List.take_succ_cons]
  have h := C3_sacrifice_policy [0] [0, 0, 0, 0] [] false 0 0 0 [0, 0, 0] hec
  exact ⟨h.2.2.1, h.2.2.2 (by decide)⟩

/-- C4 counterexample: with `senderBits = [0]`, `siftedBits = [1]`,
`matchingIndices = [0]`, the eavesdropper enabled and the injection draw equal
to `1` (the only value `random.randint(1, max(1, 1 // 15))` can produce),
`error_checking` returns `errorRate = 2`, which is outside `[0, 1]`. -/
theorem C4_counterexample :
    error_checking [0] [1] [0] true 1 = some (2, 2, [1])
    ∧ ¬ ((2 : ℚ) ≤ 1)
    ∧ (1 ≤ 1 ∧ 1 ≤ max 1 (([(1 : Int)].length) / 15)) := by
  refine ⟨?_, by norm_num, by decide⟩
  have hfold : (List.range 1).foldl (errStep [0] [1] [0]) (some 0) = some 1 := by
    decide
  unfold error_checking
  norm_num [hfold]

/-- C4 amended: `errorRate = errorCount / totalBits` and `errorRate ≥ 0` on
every successful call; `errorRate ∈ [0, 1]` holds whenever the eavesdropper is
disabled, but the enabled eavesdropper's injected errors can push the rate
above 1. -/
theorem C4_rate_bounds (ab sb mi : List Int) (eve : Bool) (inject : Nat)
    (r : ℚ) (e : Nat) (rem : List Int)
    (h : error_checking ab sb mi eve inject = some (r, e, rem)) :
    r = (e : ℚ) / (sb.length : ℚ) ∧ 0 ≤ r ∧ (eve = false → r ≤ 1) := by
  rcases error_checking_some ab sb mi eve inject r e rem h with
    ⟨h0, hr, he, _⟩ | ⟨h0, natural, hfold, he, hr, _⟩
  · subst hr he
    rw [h0]
    norm_num
  · have hnat : natural ≤ sb.length := by
      have := errFold_le ab sb mi (List.range sb.length) 0 natural hfold
      simpa using this
    have hlen : (0 : ℚ) < (sb.length : ℚ) := by
      have : 0 < sb.length := Nat.pos_of_ne_zero h0
      exact_mod_cast this
    refine ⟨hr, ?_, ?_⟩
    · rw [hr]
      positivity
    · intro heve
      subst heve
      simp only [if_neg (Bool.false_ne_true)] at he
      rw [hr, div_le_one hlen]
      have : e ≤ sb.length := by omega
      exact_mod_cast this

/-- C4 amended witness: the bounds applied at a concrete call. -/
theorem C4_rate_bounds_witness :
    (0 : ℚ) = (0 : ℚ) / (([(1 : Int), 1] : List Int).length : ℚ)
    ∧ (0 : ℚ) ≤ 0 ∧ (0 : ℚ) ≤ 1 := by
  have hec : error_checking [1] [1, 1] [0] false 0 = some (0, 0, [1]) := by
    have hfold : (List.range 2).foldl (errStep [1] [1, 1] [0]) (some 0) = some 0 := by
      decide
    unfold error_checking
    norm_num [hfold, List.take_succ_cons]
  have h := C4_rate_bounds [1] [1, 1] [0] false 0 0 0 [1] hec
  exact ⟨h.1, h.2.1, h.2.2 rfl⟩

/-- C5: both `generate_final_key` implementations return no key (`None`, the
`InsufficientBits` failure) for every input of length below 4, the empty
sequence included; on every sequence of `{0, 1}` bits of length at least 4
they return a 64-character digest written in the hexadecimal alphabet. -/
theorem C5_distill_thresholds (bits : List Int) :
    (bits.length < 4 → generate_final_key bits = none)
    ∧ (bits.length < 4 → generate_final_key_streamlit bits = none)
    ∧ (4 ≤ bits.length → (∀ b ∈ bits, b = 0 ∨ b = 1) →
        ∃ k, generate_final_key bits = some k
          ∧ k.length = 64 ∧ (∀ c ∈ k.data, c ∈ hexDigitChars))
    ∧ (4 ≤ bits.length → (∀ b ∈ bits, b = 0 ∨ b = 1) →
        ∃ k, generate_final_key_streamlit bits = some k
          ∧ k.length = 64 ∧ (∀ c ∈ k.data, c ∈ hexDigitChars)) := by
  refine ⟨?_, ?_, ?_, ?_⟩
  · intro h
    unfold generate_final_key
    rw [if_pos (Or.inr h)]
  · intro h
    unfold generate_final_key_streamlit
    rw [if_pos (Or.inr h)]
  · intro h4 hb
    obtain ⟨bd, _, hk⟩ := generate_final_key_success bits h4 hb
    exact ⟨_, hk, sha256hex_length bd, sha256hex_hex bd⟩
  · intro h4 _
    obtain ⟨bd, _, hk⟩ := generate_final_key_streamlit_success bits h4
    exact ⟨_, hk, sha256hex_length bd, sha256hex_hex bd⟩

/-- C5 witness: the thresholds applied at concrete inputs. -/
theorem C5_distill_thresholds_witness :
    generate_final_key [1] = none
    ∧ ∃ k, generate_final_key [1, 0, 1, 1] = some k ∧ k.length = 64
        ∧ (∀ c ∈ k.data, c ∈ hexDigitChars) := by
  have h1 := C5_distill_thresholds [1]
  have h2 := C5_distill_thresholds [1, 0, 1, 1]
  exact ⟨h1.1 (by decide), h2.2.2.1 (by decide) (by decide)⟩

/-- C6 counterexample: `[2, 0, 0, 0]` contains the non-bit value `2`, yet the
streamlit `generate_final_key` does not reject it: it coerces `2` to `0` and
produces a digest. -/
theorem C6_counterexample :
    ((2 : Int) ≠ 0 ∧ (2 : Int) ≠ 1)
    ∧ (generate_final_key_streamlit [2, 0, 0, 0]).isSome = true := by
  refine ⟨by decide, ?_⟩
  obtain ⟨bd, _, hk⟩ := generate_final_key_streamlit_success [2, 0, 0, 0] (by decide)
  rw [hk]
  rfl

/-- C6 amended: the streamlit `generate_final_key` never rejects a non-bit
value: on every input of length at least 4 it silently coerces each value
outside `{0, 1}` to `0` and produces the digest of the coerced sequence (the
alice-app `generate_final_key` applied to that coerced sequence). -/
theorem C6_coercion (bits : List Int) (h4 : 4 ≤ bits.length) :
    generate_final_key_streamlit bits
      = generate_final_key (bits.map (fun b => if b = 0 ∨ b = 1 then b else 0))
    ∧ (generate_final_key_streamlit bits).isSome = true := by
  refine ⟨gfk_streamlit_eq bits h4, ?_⟩
  obtain ⟨bd, _, hk⟩ := generate_final_key_streamlit_success bits h4
  rw [hk]
  rfl

/-- C6 amended witness: the coercion behavior at a concrete input containing
the non-bit value `3`. -/
theorem C6_coercion_witness :
    generate_final_key_streamlit [3, 1, 0, 1]
      = generate_final_key ([3, 1, 0, 1].map (fun b => if b = 0 ∨ b = 1 then b else 0))
    ∧ (generate_final_key_streamlit [3, 1, 0, 1]).isSome = true :=
  C6_coercion [3, 1, 0, 1] (by decide)

/-- C7 counterexample: with `senderBases = []` and `transmittedBits = [0]`
(unequal lengths, minimum 0), `bob_measurement` raises `IndexError` on
`alice_bases[0]` for every random outcome (here the all-zero oracles) instead
of returning sequences of the minimum length. -/
theorem C7_counterexample :
    bob_measurement [] [0] "random" (fun _ => 0) (fun _ => 0) = none := by decide

/-- C7 amended: neither measurement routine truncates defensively.
`bob_measurement` iterates over `transmittedBits` and indexes `senderBases`
unchecked: when `len(transmittedBits) ≤ len(senderBases)` it returns
receiver sequences of length exactly `len(transmittedBits)` (the minimum), but
when `senderBases` is shorter it raises `IndexError` for every random outcome.
`simulate_measurement` (bob-app.py) iterates over `senderBases` and, whenever
`len(senderBases) ≤ len(transmittedBits)`, returns sequences of length
`len(senderBases)`; when `senderBases` is longer it can raise as well (on any
outcome whose drawn basis matches at an out-of-range position). -/
theorem C7_measurement_truncation (ab tb : List Int) (method : String)
    (bR rR : Nat → Int) :
    (tb.length ≤ ab.length →
      ∃ bb br, bob_measurement ab tb method bR rR = some (bb, br)
        ∧ bb.length = tb.length ∧ br.length = tb.length)
    ∧ (ab.length < tb.length → bob_measurement ab tb method bR rR = none)
    ∧ (∀ (bits : List Int) (eve : Bool) (eveI eveF : Nat → Bool) (eveB : Nat → Int),
        ab.length ≤ bits.length →
        ∃ bb br,
          simulate_measurement ab bits method eve eveI eveF eveB bR rR = some (bb, br)
          ∧ bb.length = ab.length ∧ br.length = ab.length) := by
  refine ⟨?_, ?_, ?_⟩
  · intro hle
    obtain ⟨bb, br, hf, h1, h2⟩ := bmFold_ok ab tb method bR rR
      (List.range tb.length) [] []
      (fun i hi => lt_of_lt_of_le (List.mem_range.mp hi) hle)
    exact ⟨bb, br, hf, by simpa using h1, by simpa using h2⟩
  · intro hlt
    have hadd : ab.length + (tb.length - ab.length) = tb.length := by omega
    have hsplit : List.range tb.length
        = List.range' 0 ab.length ++ List.range' ab.length (tb.length - ab.length) := by
      rw [List.range_eq_range']
      rw [show List.range' 0 tb.length
          = List.range' 0 ((tb.length - ab.length) + ab.length) by
        rw [show (tb.length - ab.length) + ab.length = tb.length by omega]]
      rw [← List.range'_append_1]
      simp
    unfold bob_measurement
    rw [hsplit, List.foldl_append]
    obtain ⟨bb, br, hf, _, _⟩ := bmFold_ok ab tb method bR rR
      (List.range' 0 ab.length) [] []
      (fun i hi => by
        have := List.mem_range'_1.mp hi
        omega)
    rw [hf]
    have hk : tb.length - ab.length = (tb.length - ab.length - 1) + 1 := by omega
    rw [hk, List.range'_succ]
    simp only [List.foldl_cons]
    have hstep : bmStep ab tb method bR rR (some (bb, br)) ab.length = none := by
      simp only [bmStep]
      rw [List.get?_eq_none.mpr (le_refl _)]
    rw [hstep, bmFold_none]
  · intro bits eve eveI eveF eveB hle
    unfold simulate_measurement
    have hlen : (if eve then
        (bits.map (fun b => if b = 0 ∨ b = 1 then b else 0)).mapIdx
          (fun i b => if eveI i then (if eveF i then eveB i else b) else b)
      else bits.map (fun b => if b = 0 ∨ b = 1 then b else 0)).length
        = bits.length := by
      cases eve <;> simp
    obtain ⟨bb, br, hf, h1, h2⟩ := smFold_ok ab _ method bR rR
      (List.range ab.length) [] []
      (fun i hi => by
        rw [hlen]
        exact lt_of_lt_of_le (List.mem_range.mp hi) hle)
    exact ⟨bb, br, hf, by simpa using h1, by simpa using h2⟩

/-- C7 amended witness: the success cases applied at concrete inputs. -/
theorem C7_measurement_truncation_witness :
    (∃ bb br, bob_measurement [0, 1] [5] "random" (fun _ => 0) (fun _ => 0)
        = some (bb, br)
      ∧ bb.length = ([(5 : Int)] : List Int).length
      ∧ br.length = ([(5 : Int)] : List Int).length)
    ∧ bob_measurement [0] [5, 5] "random" (fun _ => 0) (fun _ => 0) = none := by
  have h := C7_measurement_truncation [0, 1] [5] "random" (fun _ => 0) (fun _ => 0)
  have h2 := C7_measurement_truncation [0] [5, 5] "random" (fun _ => 0) (fun _ => 0)
  exact ⟨h.1 (by decide), h2.2.1 (by decide)⟩

/-- C8 counterexample: `generate_qubits(0)` is not rejected: it returns the
(empty) pair of sequences. -/
theorem C8_counterexample :
    generate_qubits 0 "random" (fun _ => 0) (fun _ => 0) = ([], []) := by decide

/-- C8 amended: `generate_qubits` performs no input validation and has no
failure mode at all: for every `n` it returns two sequences of length
`max n 0` (so exactly `n` for every `n ≥ 1`), and for `n < 1` it returns two
empty sequences instead of rejecting the call. -/
theorem C8_no_rejection (n : Int) (method : String) (bitR baseR : Nat → Int) :
    ((generate_qubits n method bitR baseR).1.length : Int) = max n 0
    ∧ ((generate_qubits n method bitR baseR).2.length : Int) = max n 0
    ∧ (n < 1 → generate_qubits n method bitR baseR = ([], [])) := by
  have heq : generate_qubits n method bitR baseR
      = ((List.range n.toNat).map bitR, (List.range n.toNat).map baseR) := by
    unfold generate_qubits
    rw [gq_foldl]
    simp
  refine ⟨?_, ?_, ?_⟩
  · rw [heq]
    simp only [List.length_map, List.length_range]
    omega
  · rw [heq]
    simp only [List.length_map, List.length_range]
    omega
  · intro h1
    rw [heq]
    have h0 : n.toNat = 0 := by omega
    rw [h0]
    simp

/-- C8 amended witness: the amended statement applied at `n = -3`. -/
theorem C8_no_rejection_witness :
    ((generate_qubits (-3) "random" (fun _ => 0) (fun _ => 0)).1.length : Int)
        = max (-3) 0
    ∧ ((generate_qubits (-3) "random" (fun _ => 0) (fun _ => 0)).2.length : Int)
        = max (-3) 0
    ∧ generate_qubits (-3) "random" (fun _ => 0) (fun _ => 0) = ([], []) := by
  have h := C8_no_rejection (-3) "random" (fun _ => 0) (fun _ => 0)
  exact ⟨h.1, h.2.1, h.2.2 (by decide)⟩

/-- C10 counterexample: `matching_indices = [-9]` against eight sender bits
passes the `matching_indices[idx] < len(alice_bits)` guard but the Python
subscript `alice_bits[-9]` is out of range on the negative side, so
`error_checking` raises `IndexError` instead of returning a triple. -/
theorem C10_counterexample :
    error_checking [0, 0, 0, 0, 0, 0, 0, 0] [1] [-9] false 0 = none := by decide

/-- C10 amended: `error_checking` returns a triple without raising for every
input whose `matchingIndices` entries that pass the `< len(senderBits)` guard
are also `≥ -len(senderBits)` (in particular for all nonnegative entries);
positions failing either bound check contribute no error to the count. -/
theorem C10_totality (ab sb mi : List Int) (eve : Bool) (inject : Nat)
    (H : ∀ v ∈ mi, v < (ab.length : Int) → -(ab.length : Int) ≤ v) :
    ∃ t, error_checking ab sb mi eve inject = some t
      ∧ (sb.length ≠ 0 →
          t.2.1 = (List.range sb.length).countP (natErrP ab sb mi)
            + (if eve then inject else 0)) := by
  by_cases h0 : sb.length = 0
  · refine ⟨(0, 0, []), ?_, fun hn => absurd h0 hn⟩
    unfold error_checking
    rw [if_pos h0]
  · have hfold := errFold_some ab sb mi H (List.range sb.length) 0
    have hsome : ∃ t, error_checking ab sb mi eve inject = some t := by
      unfold error_checking
      rw [if_neg h0, hfold]
      exact ⟨_, rfl⟩
    obtain ⟨⟨r, e, rem⟩, ht⟩ := hsome
    refine ⟨(r, e, rem), ht, fun _ => ?_⟩
    rcases error_checking_some ab sb mi eve inject r e rem ht with
      ⟨hc0, _⟩ | ⟨_, natural, hf2, he, _⟩
    · exact absurd hc0 h0
    · have hnat : natural = (List.range sb.length).countP (natErrP ab sb mi) := by
        rw [hf2] at hfold
        simpa using hfold
      rw [show ((r, e, rem) : ℚ × Nat × List Int).2.1 = e from rfl, he, hnat]
      cases eve <;> simp

/-- C10 amended witness: totality applied at a concrete input with an
out-of-range (but nonnegative) index and a short `matchingIndices`. -/
theorem C10_totality_witness :
    ∃ t, error_checking [0] [1, 1, 1] [5] false 0 = some t
      ∧ (([(1 : Int), 1, 1] : List Int).length ≠ 0 →
          t.2.1 = (List.range ([(1 : Int), 1, 1] : List Int).length).countP
              (natErrP [0] [1, 1, 1] [5])
            + (if false then 0 else 0)) :=
  C10_totality [0] [1, 1, 1] [5] false 0 (by decide)

/-- C2: the reference scenario.  With
`senderBits = [1,0,1,1,0,0,1,0]`, `senderBases = [0,1,0,0,1,1,0,1]`,
`receiverBases = [0,0,0,0,1,1,0,0]`, `receiverResults = [1,1,1,1,0,0,1,0]`
and the eavesdropper disabled, `perform_sifting` returns
`matchingIndices = [0,2,3,4,5,6]` and `siftedBits = [1,1,1,0,0,1]`, and
`error_checking` on those returns `errorCount = 0` and `errorRate = 0`
(whatever value the unused injection draw would have had). -/
theorem C2_reference_scenario :
    perform_sifting [1, 0, 1, 1, 0, 0, 1, 0] [0, 1, 0, 0, 1, 1, 0, 1]
        [0, 0, 0, 0, 1, 1, 0, 0] [1, 1, 1, 1, 0, 0, 1, 0]
      = ([1, 1, 1, 0, 0, 1], [0, 2, 3, 4, 5, 6])
    ∧ ∀ inject : Nat,
        error_checking [1, 0, 1, 1, 0, 0, 1, 0] [1, 1, 1, 0, 0, 1] [0, 2, 3, 4, 5, 6]
          false inject
        = some (0, 0, [1, 1, 1, 0, 0]) := by
  constructor
  · decide
  · intro inject
    have hfold : (List.range 6).foldl
        (errStep [1, 0, 1, 1, 0, 0, 1, 0] [1, 1, 1, 0, 0, 1] [0, 2, 3, 4, 5, 6]) (some 0)
        = some 0 := by decide
    unfold error_checking
    norm_num [hfold, List.take_succ_cons]

/-- C9: the streamlit reset (`reset_protocol`) returns the session from any
state to the initial phase (`"setup"`, the value `init_session_state` gives a
fresh session) and clears `alice_bits`, `sifted_bits` and `final_key`; the
alice-app reset (deleting the shared file) leaves the next load observing the
default document, whose phase is the initial `"greeting"` and whose
`alice_bits`, `sifted_bits` and `final_key` are empty. -/
theorem C9_reset_returns_to_initial (s : SessionState) (t : SharedState) :
    (reset_protocol s).phase = init_session_state.phase
    ∧ (reset_protocol s).alice_bits = []
    ∧ (reset_protocol s).sifted_bits = []
    ∧ (reset_protocol s).final_key = ""
    ∧ reset_shared_state t = default_shared_state
    ∧ default_shared_state.phase = "greeting"
    ∧ default_shared_state.alice_bits = []
    ∧ default_shared_state.sifted_bits = []
    ∧ default_shared_state.final_key = "" :=
  ⟨rfl, rfl, rfl, rfl, rfl, rfl, rfl, rfl, rfl⟩

end BB84
